import Mathlib

/-!
Verification of the `ZerosAndPoles` module
(`PySimulator/Plugins/Algorithms/Control/Internal/ZerosAndPoles.py`).

The machine floats of the source are modelled by exact rationals; a complex
float value becomes a pair of rationals (`Cx`).  Magnitude comparisons
`|w| ≥ c` of the source are rendered by the equivalent rational comparison
`c ≤ 0 ∨ c^2 ≤ normSq w`, so that every definition stays executable and
decidable.  Python exceptions become values of `Except Err`.
-/

set_option maxHeartbeats 1000000

/-- Complex numbers with exact rational components: the exact-arithmetic
model of the `complex` / `numpy.complex128` values used by the source. -/
@[ext]
structure Cx where
  re : ℚ
  im : ℚ
deriving DecidableEq

instance : Zero Cx := ⟨⟨0, 0⟩⟩
instance : One Cx := ⟨⟨1, 0⟩⟩
instance : Add Cx := ⟨fun a b => ⟨a.re + b.re, a.im + b.im⟩⟩
instance : Neg Cx := ⟨fun a => ⟨-a.re, -a.im⟩⟩
instance : Sub Cx := ⟨fun a b => ⟨a.re - b.re, a.im - b.im⟩⟩
instance : Mul Cx := ⟨fun a b => ⟨a.re * b.re - a.im * b.im, a.re * b.im + a.im * b.re⟩⟩
instance : Inhabited Cx := ⟨0⟩

/-- Embedding of a real scalar into `Cx`. -/
def Cx.ofRat (q : ℚ) : Cx := ⟨q, 0⟩

/-- Complex conjugate (`numpy.conj`). -/
def Cx.conj (a : Cx) : Cx := ⟨a.re, -a.im⟩

/-- Squared magnitude; `numpy.abs w` of the source is `Real.sqrt w.normSq`. -/
def Cx.normSq (a : Cx) : ℚ := a.re * a.re + a.im * a.im

/-- Complex division.  When the divisor is zero the rational division by
zero convention makes the result `0`; the source never reaches a meaning
of its own for this case through an error (numpy emits a warning value). -/
def Cx.div (a b : Cx) : Cx :=
  ⟨(a.re * b.re + a.im * b.im) / b.normSq, (a.im * b.re - a.re * b.im) / b.normSq⟩

@[simp] theorem Cx.zero_re : (0 : Cx).re = 0 := rfl
@[simp] theorem Cx.zero_im : (0 : Cx).im = 0 := rfl
@[simp] theorem Cx.one_re : (1 : Cx).re = 1 := rfl
@[simp] theorem Cx.one_im : (1 : Cx).im = 0 := rfl
@[simp] theorem Cx.add_re (a b : Cx) : (a + b).re = a.re + b.re := rfl
@[simp] theorem Cx.add_im (a b : Cx) : (a + b).im = a.im + b.im := rfl
@[simp] theorem Cx.neg_re (a : Cx) : (-a).re = -a.re := rfl
@[simp] theorem Cx.neg_im (a : Cx) : (-a).im = -a.im := rfl
@[simp] theorem Cx.sub_re (a b : Cx) : (a - b).re = a.re - b.re := rfl
@[simp] theorem Cx.sub_im (a b : Cx) : (a - b).im = a.im - b.im := rfl
@[simp] theorem Cx.mul_re (a b : Cx) : (a * b).re = a.re * b.re - a.im * b.im := rfl
@[simp] theorem Cx.mul_im (a b : Cx) : (a * b).im = a.re * b.im + a.im * b.re := rfl
@[simp] theorem Cx.ofRat_re (q : ℚ) : (Cx.ofRat q).re = q := rfl
@[simp] theorem Cx.ofRat_im (q : ℚ) : (Cx.ofRat q).im = 0 := rfl
@[simp] theorem Cx.conj_re (a : Cx) : a.conj.re = a.re := rfl
@[simp] theorem Cx.conj_im (a : Cx) : a.conj.im = -a.im := rfl

theorem Cx.mul_comm' (a b : Cx) : a * b = b * a := by
  ext <;> simp <;> ring

theorem Cx.mul_assoc' (a b c : Cx) : a * b * c = a * (b * c) := by
  ext <;> simp <;> ring

theorem Cx.one_mul' (a : Cx) : 1 * a = a := by
  ext <;> simp

theorem Cx.mul_one' (a : Cx) : a * 1 = a := by
  ext <;> simp

/-- Product of a list of `Cx` values (running product of factors). -/
def prodL : List Cx → Cx
  | [] => 1
  | a :: l => a * prodL l

@[simp] theorem prodL_nil : prodL [] = 1 := rfl
@[simp] theorem prodL_cons (a : Cx) (l : List Cx) : prodL (a :: l) = a * prodL l := rfl

theorem prodL_append (l₁ l₂ : List Cx) :
    prodL (l₁ ++ l₂) = prodL l₁ * prodL l₂ := by
  induction l₁ with
  | nil => simp [Cx.one_mul']
  | cons a l ih => simp [ih, Cx.mul_assoc']

theorem prodL_perm {l₁ l₂ : List Cx} (h : l₁.Perm l₂) : prodL l₁ = prodL l₂ := by
  induction h with
  | nil => rfl
  | cons x _ ih => simp [ih]
  | swap x y l =>
      simp only [prodL_cons]
      rw [← Cx.mul_assoc', ← Cx.mul_assoc', Cx.mul_comm' y x]
  | trans _ _ ih₁ ih₂ => exact ih₁.trans ih₂

/-- Kinds of failures of the module: the spec taxonomy maps Python's
`ValueError` and `TypeError` to `invalidArgument` and `IndexError` to
`outOfRange`; `nameError` models an escaping `UnboundLocalError`, a failure
outside the spec's taxonomy. -/
inductive ErrKind where
  | invalidArgument
  | outOfRange
  | nameError
deriving DecidableEq

/-- A failure together with the data the error message reports: the source
includes `str(roots)` in the non-conjugate-pair message and nothing
comparable in the other messages. -/
structure Err where
  kind : ErrKind
  reportedRoots : Option (List Cx)
deriving DecidableEq

/-- Machine epsilon of binary64 (`sys.float_info.epsilon`). -/
def machineEps : ℚ := 1 / 2 ^ 52

/-- The tolerance `eps = 100.0 * sys.float_info.epsilon` of
`transformRootsToPoly2`. -/
def eps100 : ℚ := 100 * machineEps

/-- The per-pair conjugate validity test of `transformRootsToPoly2`:
`abs(conj r1 - r2) < eps * max(1, abs(r1.real))`, rendered with both sides
squared (equivalent, since the bound is positive). -/
def pairOk (r1 r2 : Cx) : Prop :=
  (r1.conj - r2).normSq < (eps100 * max 1 |r1.re|) ^ 2

instance (r1 r2 : Cx) : Decidable (pairOk r1 r2) := by
  unfold pairOk; exact inferInstance

/-- Grouping of a root vector into the consecutive pairs
`(roots[2j], roots[2j+1])`: the model of the strided slices
`roots[0::2]` / `roots[1::2]` of the source. -/
def chunkPairs : List Cx → List (Cx × Cx)
  | r1 :: r2 :: rest => (r1, r2) :: chunkPairs rest
  | _ => []

@[simp] theorem chunkPairs_nil : chunkPairs [] = [] := rfl
@[simp] theorem chunkPairs_cons (r1 r2 : Cx) (l : List Cx) :
    chunkPairs (r1 :: r2 :: l) = (r1, r2) :: chunkPairs l := rfl

/-- Model of `transformRootsToPoly2(roots)`: check the even length, check
every consecutive pair for conjugate validity (reporting the whole root
vector on failure), then return the rows
`(Re(r1*r2), Re(-(r1+r2)))`, one per pair. -/
def transformRootsToPoly2 (roots : List Cx) : Except Err (List (ℚ × ℚ)) :=
  if roots.length % 2 ≠ 0 then
    .error ⟨.invalidArgument, none⟩
  else if ∀ pr ∈ chunkPairs roots, pairOk pr.1 pr.2 then
    .ok ((chunkPairs roots).map fun pr => ((pr.1 * pr.2).re, (-(pr.1 + pr.2)).re))
  else
    .error ⟨.invalidArgument, some roots⟩

/-- The SISO transfer-function entity `ZerosAndPolesSISO`: gain `k`,
first-order real factor coefficients `n1`/`d1` (factor `s + a`),
second-order real factor rows `n2`/`d2` (factor `s^2 + b*s + a`, stored as
`(a, b)`), and the complex zero/pole vectors `z`/`p`. -/
structure SISO where
  k : ℚ
  n1 : List ℚ
  n2 : List (ℚ × ℚ)
  d1 : List ℚ
  d2 : List (ℚ × ℚ)
  z : List Cx
  p : List Cx
deriving DecidableEq

instance : Inhabited SISO := ⟨⟨0, [], [], [], [], [], []⟩⟩

/-- Model of `ZerosAndPolesSISO.__init__` for the 3-element root form
`(k, z, p)`: store `z`, `p` directly; copy the purely real entries negated
into `n1`/`d1`; convert the strictly complex subsequences through
`transformRootsToPoly2` (numerator first, as in the source), propagating
its failure. -/
def fromRootForm (k : ℚ) (z p : List Cx) : Except Err SISO :=
  match transformRootsToPoly2 (z.filter fun t => !(t.im == 0)) with
  | .error e => .error e
  | .ok n2v =>
      match transformRootsToPoly2 (p.filter fun t => !(t.im == 0)) with
      | .error e => .error e
      | .ok d2v =>
          .ok { k := k
                n1 := (z.filter fun t => t.im == 0).map fun t => -t.re
                n2 := n2v
                d1 := (p.filter fun t => t.im == 0).map fun t => -t.re
                d2 := d2v
                z := z
                p := p }

/-- Numerator accumulation of `evaluate_at_s`: running product starting at
`k`, multiplying in `ss + zj` for each first-order coefficient and
`aj + (bj + ss) * ss` for each second-order row, in stored order. -/
def numAt (sys : SISO) (s : Cx) : Cx :=
  (sys.n2.foldl (fun num ab => num * (Cx.ofRat ab.1 + (Cx.ofRat ab.2 + s) * s))
    (sys.n1.foldl (fun num zj => num * (s + Cx.ofRat zj)) (Cx.ofRat sys.k)))

/-- Denominator accumulation of `evaluate_at_s`: running product starting
at `1`. -/
def denAt (sys : SISO) (s : Cx) : Cx :=
  (sys.d2.foldl (fun den ab => den * (Cx.ofRat ab.1 + (Cx.ofRat ab.2 + s) * s))
    (sys.d1.foldl (fun den pj => den * (s + Cx.ofRat pj)) 1))

/-- Exact-arithmetic rendering of `abs w >= c`: equivalent to the source's
float comparison for every sign of `c`. -/
def absGe (w : Cx) (c : ℚ) : Prop := c ≤ 0 ∨ c ^ 2 ≤ w.normSq

instance (w : Cx) (c : ℚ) : Decidable (absGe w c) := by
  unfold absGe; exact inferInstance

/-- The divisor `den2` selected by `evaluate_at_s`: the denominator itself
when `abs(den) >= den_min`, otherwise the scalar floor `den_min`. -/
def chosenDivisor (sys : SISO) (s : Cx) (den_min : ℚ) : Cx :=
  if absGe (denAt sys s) den_min then denAt sys s else Cx.ofRat den_min

/-- Model of `ZerosAndPolesSISO.evaluate_at_s` at one point (the vector
path applies the same arithmetic elementwise). -/
def SISO.evaluate_at_s (sys : SISO) (s : Cx) (den_min : ℚ) : Cx :=
  Cx.div (numAt sys s) (chosenDivisor sys s den_min)

/-- Elementwise evaluation at a vector of points: the numpy-vectorized
path of `evaluate_at_s`, whose per-point arithmetic coincides with the
scalar path. -/
def SISO.evaluate_at_s_vec (sys : SISO) (s : List Cx) (den_min : ℚ) : List Cx :=
  s.map fun sk => evaluate_at_s sys sk den_min

/-- Model of `ZerosAndPolesSISO.set_k`: overwrite the gain only. -/
def set_k (sys : SISO) (k_new : ℚ) : SISO := { sys with k := k_new }

/-- The reference transfer-function value of the spec's words:
`k * prod (s - z_i) / prod (s - p_i)`. -/
def specTransferValue (k : ℚ) (z p : List Cx) (s : Cx) : Cx :=
  Cx.div (Cx.ofRat k * prodL (z.map fun t => s - t)) (prodL (p.map fun t => s - t))

/-- The MIMO transfer-function matrix `ZerosAndPoles`: `ny × nu` cells of
SISO entities, stored row-major (`zpk[row][col]`). -/
structure MIMO where
  zpk : List (List SISO)
  nu : ℕ
  ny : ℕ
deriving DecidableEq

/-- Model of `ZerosAndPoles.__init__` on a matrix whose cells are already
SISO entities: `nu = len(zpk[0])`, `ny = len(zpk)`. -/
def MIMO.ofMatrix (m : List (List SISO)) : MIMO :=
  { zpk := m, nu := (m.getD 0 []).length, ny := m.length }

/-- Model of `ZerosAndPoles.__getitem__`: a key whose length is not 2
raises `TypeError` (spec kind `invalidArgument`); a component outside
`[0, ny)` / `[0, nu)` raises `IndexError` (spec kind `outOfRange`);
otherwise the stored cell is returned. -/
def MIMO.getItem (M : MIMO) (key : List ℤ) : Except Err SISO :=
  if key.length ≠ 2 then
    .error ⟨.invalidArgument, none⟩
  else if key.getD 0 0 < 0 ∨ (M.ny : ℤ) ≤ key.getD 0 0 then
    .error ⟨.outOfRange, none⟩
  else if key.getD 1 0 < 0 ∨ (M.nu : ℤ) ≤ key.getD 1 0 then
    .error ⟨.outOfRange, none⟩
  else
    .ok ((M.zpk.getD (key.getD 0 0).toNat []).getD (key.getD 1 0).toNat default)

/-- Model of `ZerosAndPoles.evaluate_at_s` at one point: default the index
selections to all inputs/outputs, then build
`[[cell(i,j).evaluate_at_s(s) for i in yi] for j in ui]` — outer index over
selected inputs, inner over selected outputs. -/
def MIMO.evaluate_at_s (M : MIMO) (s : Cx) (den_min : ℚ)
    (u_indices y_indices : Option (List ℕ)) : List (List Cx) :=
  (u_indices.getD (List.range M.nu)).map fun j =>
    (y_indices.getD (List.range M.ny)).map fun i =>
      SISO.evaluate_at_s ((M.zpk.getD i []).getD j default) s den_min

/-- Vector-point variant of `MIMO.evaluate_at_s`, used by the frequency
response (each leaf is the per-cell response vector). -/
def MIMO.evaluate_at_s_vec (M : MIMO) (s : List Cx) (den_min : ℚ)
    (u_indices y_indices : Option (List ℕ)) : List (List (List Cx)) :=
  (u_indices.getD (List.range M.nu)).map fun j =>
    (y_indices.getD (List.range M.ny)).map fun i =>
      SISO.evaluate_at_s_vec ((M.zpk.getD i []).getD j default) s den_min

/-- Modelled from the spec: the external collaborators `Misc.frequencyRange`
(automatic `(f_min, f_max)` selection from the zero and pole vectors),
the `n+1`-point log/linear frequency spacing (`numpy.logspace` /
`numpy.linspace`, irrational in general), and the Hz to rad/s conversion
`Misc.from_Hz` are not part of this repository; they are carried as
opaque-function data here, faithful to the spec's collaborator contracts. -/
structure Collaborators where
  autoRange : List Cx → List Cx → ℚ × ℚ
  space : Bool → ℚ → ℚ → ℕ → List ℚ
  fromHz : ℚ → ℚ

/-- Per-cell frequency range of `ZerosAndPolesSISO.frequencyRange`: pass a
user-supplied range through unchanged, otherwise delegate to the
collaborator on the stored zeros and poles. -/
def sisoFrequencyRange (co : Collaborators) (sys : SISO)
    (f_range : Option (ℚ × ℚ)) : ℚ × ℚ :=
  match f_range with
  | some r => r
  | none => co.autoRange sys.z sys.p

/-- Model of `ZerosAndPoles.frequencyResponse`.  When `f_range` is given,
the source assigns `(f_min, f_max)` from it and computes the frequency
vector, but the local variables `ui` and `yi` read by the final call
`self.evaluate_at_s(w, 1e-10, ui, yi)` are assigned only in the
`f_range == None` branch: the call raises `UnboundLocalError`.  When
`f_range` is omitted, the union range over the selected cells is computed
(starting from cell `(yi[0], ui[0])` and folding `min`/`max` over all
selected cells, the first cell included twice as in the source) and the
matrix is evaluated at the imaginary-axis points with `den_min = 1e-10`. -/
def mimoFrequencyResponse (co : Collaborators) (M : MIMO) (n : ℕ)
    (f_range : Option (ℚ × ℚ)) (f_logspace : Bool)
    (u_indices y_indices : Option (List ℕ)) :
    Except Err (List ℚ × List (List (List Cx))) :=
  match f_range with
  | some _ => .error ⟨.nameError, none⟩
  | none =>
      let ui := u_indices.getD (List.range M.nu)
      let yi := y_indices.getD (List.range M.ny)
      let cellRange := fun (i j : ℕ) =>
        sisoFrequencyRange co ((M.zpk.getD i []).getD j default) none
      let fmm := yi.foldl
        (fun acc i => ui.foldl
          (fun acc2 j =>
            (min acc2.1 (cellRange i j).1, max acc2.2 (cellRange i j).2))
          acc)
        (cellRange (yi.getD 0 0) (ui.getD 0 0))
      let f := co.space f_logspace fmm.1 fmm.2 n
      let w := f.map fun fk => Cx.mk 0 (co.fromHz fk)
      .ok (f, M.evaluate_at_s_vec w (1 / 10 ^ 10) (some ui) (some yi))

/-- Two-step list induction, matching the pair structure of `chunkPairs`. -/
theorem twoStepInduction {motive : List Cx → Prop} (h0 : motive [])
    (h1 : ∀ a, motive [a]) (h2 : ∀ a b l, motive l → motive (a :: b :: l)) :
    ∀ l, motive l
  | [] => h0
  | [a] => h1 a
  | a :: b :: l => h2 a b l (twoStepInduction h0 h1 h2 l)

theorem chunkPairs_length : ∀ l : List Cx, (chunkPairs l).length = l.length / 2 := by
  refine twoStepInduction rfl (fun a => by simp [chunkPairs]) ?_
  intro a b l ih
  simp only [chunkPairs_cons, List.length_cons, ih]
  omega

theorem chunkPairs_getD : ∀ (l : List Cx) (j : ℕ), 2 * j + 1 < l.length →
    (chunkPairs l).getD j (0, 0) = (l.getD (2 * j) 0, l.getD (2 * j + 1) 0) := by
  refine twoStepInduction ?_ ?_ ?_
  · intro j h; simp at h
  · intro a j h; simp at h
  · intro a b l ih j h
    cases j with
    | zero => simp
    | succ j =>
        have h' : 2 * j + 1 < l.length := by
          simp only [List.length_cons] at h; omega
        have e1 : 2 * (j + 1) = 2 * j + 1 + 1 := by omega
        have e2 : 2 * (j + 1) + 1 = 2 * j + 1 + 1 + 1 := by omega
        simp only [chunkPairs_cons, List.getD_cons_succ, e1, e2]
        exact ih j h'

theorem getD_map {α β : Type} (f : α → β) (d : β) (d₀ : α) :
    ∀ (l : List α) (i : ℕ), i < l.length →
      (l.map f).getD i d = f (l.getD i d₀) := by
  intro l
  induction l with
  | nil => intro i h; simp at h
  | cons a l ih =>
      intro i h
      cases i with
      | zero => simp
      | succ i =>
          simp only [List.map_cons, List.getD_cons_succ]
          exact ih i (by simpa using h)

theorem foldl_mul {α : Type} (f : α → Cx) : ∀ (l : List α) (i : Cx),
    l.foldl (fun acc x => acc * f x) i = i * prodL (l.map f) := by
  intro l
  induction l with
  | nil => intro i; simp [Cx.mul_one']
  | cons a l ih =>
      intro i
      simp only [List.foldl_cons, List.map_cons, prodL_cons]
      rw [ih, ← Cx.mul_assoc']

theorem transform_ok_even {roots : List Cx} {c : List (ℚ × ℚ)}
    (h : transformRootsToPoly2 roots = .ok c) : roots.length % 2 = 0 := by
  by_contra hodd
  unfold transformRootsToPoly2 at h
  rw [if_pos hodd] at h
  exact Except.noConfusion h

theorem transform_ok_val {roots : List Cx} {c : List (ℚ × ℚ)}
    (h : transformRootsToPoly2 roots = .ok c) :
    c = (chunkPairs roots).map fun pr => ((pr.1 * pr.2).re, (-(pr.1 + pr.2)).re) := by
  unfold transformRootsToPoly2 at h
  by_cases h1 : roots.length % 2 ≠ 0
  · rw [if_pos h1] at h; exact Except.noConfusion h
  · rw [if_neg h1] at h
    by_cases h2 : ∀ pr ∈ chunkPairs roots, pairOk pr.1 pr.2
    · rw [if_pos h2] at h
      exact (Except.ok.inj h).symm
    · rw [if_neg h2] at h; exact Except.noConfusion h

theorem transform_ok_spec {roots : List Cx} (h1 : roots.length % 2 = 0)
    (h2 : ∀ pr ∈ chunkPairs roots, pairOk pr.1 pr.2) :
    transformRootsToPoly2 roots =
      .ok ((chunkPairs roots).map fun pr => ((pr.1 * pr.2).re, (-(pr.1 + pr.2)).re)) := by
  unfold transformRootsToPoly2
  rw [if_neg (by omega), if_pos h2]

theorem pair_factor (s a : Cx) :
    (s - a) * (s - a.conj) =
      Cx.ofRat ((a * a.conj).re) + (Cx.ofRat ((-(a + a.conj)).re) + s) * s := by
  ext <;> simp <;> ring

theorem prod_chunk (s : Cx) : ∀ Q : List Cx, Q.length % 2 = 0 →
    (∀ pr ∈ chunkPairs Q, pr.2 = pr.1.conj) →
    prodL (Q.map fun t => s - t) =
      prodL ((chunkPairs Q).map fun pr =>
        Cx.ofRat ((pr.1 * pr.2).re) + (Cx.ofRat ((-(pr.1 + pr.2)).re) + s) * s) := by
  refine twoStepInduction ?_ ?_ ?_
  · intro _ _; rfl
  · intro a heven _; simp at heven
  · intro a b l ih heven hconj
    have hb : b = a.conj := hconj (a, b) (by simp)
    have hrest : ∀ pr ∈ chunkPairs l, pr.2 = pr.1.conj := by
      intro pr hpr; exact hconj pr (by simp [hpr])
    have hlen : l.length % 2 = 0 := by
      simp only [List.length_cons] at heven; omega
    simp only [List.map_cons, prodL_cons, chunkPairs_cons]
    rw [← Cx.mul_assoc', ih hlen hrest, hb, pair_factor]

theorem prodL_filter_split (f : Cx → Cx) (l : List Cx) (q : Cx → Bool) :
    prodL (l.map f) =
      prodL ((l.filter q).map f) * prodL ((l.filter fun t => !(q t)).map f) := by
  rw [← prodL_append, ← List.map_append]
  exact (prodL_perm ((List.filter_append_perm q l).map f)).symm

theorem real_factor_map (s : Cx) (l : List Cx) :
    ((l.filter fun t => t.im == 0).map fun t => s - t) =
      ((l.filter fun t => t.im == 0).map fun t => -t.re).map fun a => s + Cx.ofRat a := by
  rw [List.map_map]
  apply List.map_congr_left
  intro t ht
  have h0 : t.im = 0 := by simpa using (List.mem_filter.mp ht).2
  ext <;> simp [h0, sub_eq_add_neg]

theorem prod_root_factors (s : Cx) (l : List Cx)
    (heven : (l.filter fun t => !(t.im == 0)).length % 2 = 0)
    (hconj : ∀ pr ∈ chunkPairs (l.filter fun t => !(t.im == 0)), pr.2 = pr.1.conj) :
    prodL (l.map fun t => s - t) =
      prodL (((l.filter fun t => t.im == 0).map fun t => -t.re).map
          fun a => s + Cx.ofRat a) *
        prodL (((chunkPairs (l.filter fun t => !(t.im == 0))).map
            fun pr => ((pr.1 * pr.2).re, (-(pr.1 + pr.2)).re)).map
          fun ab => Cx.ofRat ab.1 + (Cx.ofRat ab.2 + s) * s) := by
  rw [prodL_filter_split (fun t => s - t) l (fun t => t.im == 0), ← real_factor_map]
  congr 1
  rw [prod_chunk s _ heven hconj, List.map_map]
  rfl

theorem numAt_eq (sys : SISO) (s : Cx) :
    numAt sys s =
      Cx.ofRat sys.k * prodL (sys.n1.map fun a => s + Cx.ofRat a) *
        prodL (sys.n2.map fun ab => Cx.ofRat ab.1 + (Cx.ofRat ab.2 + s) * s) := by
  unfold numAt
  rw [foldl_mul, foldl_mul]

theorem denAt_eq (sys : SISO) (s : Cx) :
    denAt sys s =
      prodL (sys.d1.map fun a => s + Cx.ofRat a) *
        prodL (sys.d2.map fun ab => Cx.ofRat ab.1 + (Cx.ofRat ab.2 + s) * s) := by
  unfold denAt
  rw [foldl_mul, foldl_mul, Cx.one_mul']

theorem chosenDivisor_zero (sys : SISO) (s : Cx) :
    chosenDivisor sys s 0 = denAt sys s := by
  unfold chosenDivisor
  rw [if_pos (show absGe (denAt sys s) 0 from Or.inl le_rfl)]

theorem Cx.normSq_nonneg (a : Cx) : 0 ≤ a.normSq :=
  add_nonneg (mul_self_nonneg _) (mul_self_nonneg _)

theorem fromRootForm_ok_inv {k : ℚ} {z p : List Cx} {sys : SISO}
    (h : fromRootForm k z p = .ok sys) :
    ∃ n2v d2v,
      transformRootsToPoly2 (z.filter fun t => !(t.im == 0)) = .ok n2v ∧
      transformRootsToPoly2 (p.filter fun t => !(t.im == 0)) = .ok d2v ∧
      sys = { k := k
              n1 := (z.filter fun t => t.im == 0).map fun t => -t.re
              n2 := n2v
              d1 := (p.filter fun t => t.im == 0).map fun t => -t.re
              d2 := d2v
              z := z
              p := p } := by
  cases htz : transformRootsToPoly2 (z.filter fun t => !(t.im == 0)) with
  | error e =>
      unfold fromRootForm at h
      rw [htz] at h
      exact Except.noConfusion h
  | ok n2v =>
      cases htp : transformRootsToPoly2 (p.filter fun t => !(t.im == 0)) with
      | error e =>
          unfold fromRootForm at h
          rw [htz, htp] at h
          exact Except.noConfusion h
      | ok d2v =>
          unfold fromRootForm at h
          rw [htz, htp] at h
          exact ⟨n2v, d2v, rfl, rfl, (Except.ok.inj h).symm⟩

/-- C3: a SISO entity built from root form `(k, z, p)` whose strictly
complex entries pair up into exact conjugate pairs evaluates, at every
point `s`, to exactly the reference value `k * prod (s - z_i) / prod (s - p_i)`
(exact equality in the rational model, hence within every positive relative
tolerance, in particular 1e-9). -/
theorem evaluate_root_form_matches_reference (k : ℚ) (z p : List Cx)
    (sys : SISO) (s : Cx)
    (h : fromRootForm k z p = .ok sys)
    (hz : ∀ pr ∈ chunkPairs (z.filter fun t => !(t.im == 0)), pr.2 = pr.1.conj)
    (hp : ∀ pr ∈ chunkPairs (p.filter fun t => !(t.im == 0)), pr.2 = pr.1.conj) :
    sys.evaluate_at_s s 0 = specTransferValue k z p s := by
  obtain ⟨n2v, d2v, htz, htp, hsys⟩ := fromRootForm_ok_inv h
  have hez := transform_ok_even htz
  have hep := transform_ok_even htp
  have hn2 := transform_ok_val htz
  have hd2 := transform_ok_val htp
  subst hsys
  subst hn2
  subst hd2
  unfold SISO.evaluate_at_s
  rw [chosenDivisor_zero]
  unfold specTransferValue
  rw [prod_root_factors s z hez hz, prod_root_factors s p hep hp,
    numAt_eq, denAt_eq]
  simp only [Cx.mul_assoc']

/-- The zero vector `[4.0, 2-3j, 2+3j]` of the spec's evaluation test. -/
def testZeros : List Cx := [⟨4, 0⟩, ⟨2, -3⟩, ⟨2, 3⟩]

/-- The pole vector `[1+2j, 1-2j, 5.0, 6.0, 4-3j, 4+3j, 7]` of the spec's
evaluation test. -/
def testPoles : List Cx :=
  [⟨1, 2⟩, ⟨1, -2⟩, ⟨5, 0⟩, ⟨6, 0⟩, ⟨4, -3⟩, ⟨4, 3⟩, ⟨7, 0⟩]

/-- The entity `ZerosAndPolesSISO((3.1, testZeros, testPoles))`, with the
factor coefficients the construction derives. -/
def testSys : SISO :=
  { k := 31 / 10, n1 := [-4], n2 := [(13, -4)],
    d1 := [-5, -6, -7], d2 := [(5, -2), (25, -8)],
    z := testZeros, p := testPoles }

/-- An exactly conjugate pair always passes the conjugate-validity test:
the squared distance is zero and the squared bound is positive. -/
theorem pairOk_of_conj (r1 r2 : Cx) (h : r2 = r1.conj) : pairOk r1 r2 := by
  subst h
  unfold pairOk
  have h1 : (r1.conj - r1.conj).normSq = 0 := by
    simp [Cx.normSq]
  rw [h1]
  have he : 0 < eps100 := by norm_num [eps100, machineEps]
  have hm : (0 : ℚ) < max 1 |r1.re| := lt_of_lt_of_le one_pos (le_max_left _ _)
  positivity

theorem pairsOk_of_conj {Q : List Cx} (h : ∀ pr ∈ chunkPairs Q, pr.2 = pr.1.conj) :
    ∀ pr ∈ chunkPairs Q, pairOk pr.1 pr.2 :=
  fun pr hpr => pairOk_of_conj pr.1 pr.2 (h pr hpr)

theorem transform_test_n2 :
    transformRootsToPoly2 [(⟨2, -3⟩ : Cx), ⟨2, 3⟩] = .ok [(13, -4)] := by
  rw [transform_ok_spec (by decide) (pairsOk_of_conj (by decide))]
  norm_num

theorem transform_test_d2 :
    transformRootsToPoly2 [(⟨1, 2⟩ : Cx), ⟨1, -2⟩, ⟨4, -3⟩, ⟨4, 3⟩] =
      .ok [(5, -2), (25, -8)] := by
  rw [transform_ok_spec (by decide) (pairsOk_of_conj (by decide))]
  norm_num

theorem fromRootForm_testSys :
    fromRootForm (31 / 10) testZeros testPoles = .ok testSys := by
  have hzf : testZeros.filter (fun t => !(t.im == 0)) = [⟨2, -3⟩, ⟨2, 3⟩] := by decide
  have hpf : testPoles.filter (fun t => !(t.im == 0)) =
      [⟨1, 2⟩, ⟨1, -2⟩, ⟨4, -3⟩, ⟨4, 3⟩] := by decide
  have hzr : (testZeros.filter fun t => t.im == 0).map (fun t => -t.re) =
      ([-4] : List ℚ) := by decide
  have hpr2 : (testPoles.filter fun t => t.im == 0).map (fun t => -t.re) =
      ([-5, -6, -7] : List ℚ) := by decide
  unfold fromRootForm
  rw [hzf, hpf, transform_test_n2, transform_test_d2, hzr, hpr2]
  rfl

theorem evaluate_root_form_matches_reference_witness :
    testSys.evaluate_at_s ⟨2, 0⟩ 0 = specTransferValue (31 / 10) testZeros testPoles ⟨2, 0⟩ ∧
    testSys.evaluate_at_s ⟨3, 0⟩ 0 = specTransferValue (31 / 10) testZeros testPoles ⟨3, 0⟩ :=
  ⟨evaluate_root_form_matches_reference (31 / 10) testZeros testPoles testSys ⟨2, 0⟩
      fromRootForm_testSys (by decide) (by decide),
   evaluate_root_form_matches_reference (31 / 10) testZeros testPoles testSys ⟨3, 0⟩
      fromRootForm_testSys (by decide) (by decide)⟩

/-- C4: on an even-length, conjugate-valid root vector the conversion
succeeds and row `j` of the result is
`(Re(roots[2j]*roots[2j+1]), Re(-(roots[2j]+roots[2j+1])))`. -/
theorem transformRootsToPoly2_rows_spec (roots : List Cx)
    (h1 : roots.length % 2 = 0)
    (h2 : ∀ pr ∈ chunkPairs roots, pairOk pr.1 pr.2) :
    ∃ c, transformRootsToPoly2 roots = .ok c ∧ c.length = roots.length / 2 ∧
      ∀ j, 2 * j + 1 < roots.length →
        c.getD j (0, 0) =
          ((roots.getD (2 * j) 0 * roots.getD (2 * j + 1) 0).re,
           (-(roots.getD (2 * j) 0 + roots.getD (2 * j + 1) 0)).re) := by
  refine ⟨_, transform_ok_spec h1 h2, ?_, ?_⟩
  · rw [List.length_map, chunkPairs_length]
  · intro j hj
    have hjlen : j < (chunkPairs roots).length := by
      rw [chunkPairs_length]; omega
    rw [getD_map _ (((0 : ℚ), (0 : ℚ))) ((0 : Cx), (0 : Cx)) _ j hjlen,
      chunkPairs_getD roots j hj]

theorem transformRootsToPoly2_rows_spec_witness :
    (∃ c, transformRootsToPoly2 [⟨1, 2⟩, ⟨1, -2⟩, ⟨4, -3⟩, ⟨4, 3⟩] = .ok c ∧
      c.length = ([⟨1, 2⟩, ⟨1, -2⟩, ⟨4, -3⟩, ⟨4, 3⟩] : List Cx).length / 2 ∧
      ∀ j, 2 * j + 1 < ([⟨1, 2⟩, ⟨1, -2⟩, ⟨4, -3⟩, ⟨4, 3⟩] : List Cx).length →
        c.getD j (0, 0) =
          ((([⟨1, 2⟩, ⟨1, -2⟩, ⟨4, -3⟩, ⟨4, 3⟩] : List Cx).getD (2 * j) 0 *
              ([⟨1, 2⟩, ⟨1, -2⟩, ⟨4, -3⟩, ⟨4, 3⟩] : List Cx).getD (2 * j + 1) 0).re,
           (-(([⟨1, 2⟩, ⟨1, -2⟩, ⟨4, -3⟩, ⟨4, 3⟩] : List Cx).getD (2 * j) 0 +
              ([⟨1, 2⟩, ⟨1, -2⟩, ⟨4, -3⟩, ⟨4, 3⟩] : List Cx).getD (2 * j + 1) 0)).re)) ∧
    transformRootsToPoly2 [⟨1, 2⟩, ⟨1, -2⟩, ⟨4, -3⟩, ⟨4, 3⟩] = .ok [(5, -2), (25, -8)] :=
  ⟨transformRootsToPoly2_rows_spec [⟨1, 2⟩, ⟨1, -2⟩, ⟨4, -3⟩, ⟨4, 3⟩]
      (by decide) (pairsOk_of_conj (by decide)),
   transform_test_d2⟩

/-- C5: the conversion fails exactly when the length is odd or some
consecutive pair violates the conjugate-validity bound; every failure is
an `invalidArgument`, and a conjugate-validity failure (even length)
reports the offending root vector. -/
theorem transformRootsToPoly2_failure_spec (roots : List Cx) :
    ((∃ e, transformRootsToPoly2 roots = .error e) ↔
      roots.length % 2 ≠ 0 ∨ ∃ pr ∈ chunkPairs roots, ¬ pairOk pr.1 pr.2) ∧
    (∀ e, transformRootsToPoly2 roots = .error e → e.kind = ErrKind.invalidArgument) ∧
    (roots.length % 2 = 0 → ∀ e, transformRootsToPoly2 roots = .error e →
      e.reportedRoots = some roots) := by
  unfold transformRootsToPoly2
  by_cases h1 : roots.length % 2 ≠ 0
  · rw [if_pos h1]
    refine ⟨⟨fun _ => Or.inl h1, fun _ => ⟨_, rfl⟩⟩, ?_, ?_⟩
    · intro e he; cases Except.error.inj he; rfl
    · intro h0; exact absurd h0 h1
  · rw [if_neg h1]
    by_cases h2 : ∀ pr ∈ chunkPairs roots, pairOk pr.1 pr.2
    · rw [if_pos h2]
      refine ⟨⟨?_, ?_⟩, ?_, ?_⟩
      · rintro ⟨e, he⟩; exact Except.noConfusion he
      · rintro (hodd | ⟨pr, hpr, hbad⟩)
        · exact absurd hodd h1
        · exact absurd (h2 pr hpr) hbad
      · intro e he; exact Except.noConfusion he
      · intro _ e he; exact Except.noConfusion he
    · rw [if_neg h2]
      push_neg at h2
      obtain ⟨pr, hpr, hbad⟩ := h2
      refine ⟨⟨fun _ => Or.inr ⟨pr, hpr, hbad⟩, fun _ => ⟨_, rfl⟩⟩, ?_, ?_⟩
      · intro e he; cases Except.error.inj he; rfl
      · intro _ e he; cases Except.error.inj he; rfl

theorem pair_1p2_1m3_not_ok : ¬ pairOk ⟨1, 2⟩ ⟨1, -3⟩ := by
  norm_num [pairOk, Cx.conj, Cx.normSq, eps100, machineEps]

theorem transformRootsToPoly2_failure_spec_witness :
    (∃ e, transformRootsToPoly2 [⟨1, 2⟩, ⟨1, -3⟩] = .error e) ∧
    (∃ e, transformRootsToPoly2 [⟨1, 2⟩, ⟨1, -2⟩, ⟨4, 3⟩] = .error e) :=
  ⟨(transformRootsToPoly2_failure_spec [⟨1, 2⟩, ⟨1, -3⟩]).1.mpr
      (Or.inr ⟨(⟨1, 2⟩, ⟨1, -3⟩), by decide, pair_1p2_1m3_not_ok⟩),
   (transformRootsToPoly2_failure_spec [⟨1, 2⟩, ⟨1, -2⟩, ⟨4, 3⟩]).1.mpr
      (Or.inl (by decide))⟩

/-- C6: root-form construction stores `z`/`p` directly, turns the
purely-real entries (imaginary part exactly zero) negated and in input
order into `n1`/`d1`, and produces `n2`/`d2` from the strictly-complex
subsequences through the root-to-polynomial conversion, pairing
positionally (entries 0 and 1, 2 and 3, ...) within each filtered
subsequence. -/
theorem root_form_construction_spec (k : ℚ) (z p : List Cx) (sys : SISO)
    (h : fromRootForm k z p = .ok sys) :
    sys.k = k ∧ sys.z = z ∧ sys.p = p ∧
    sys.n1 = ((z.filter fun t => t.im == 0).map fun t => -t.re) ∧
    sys.d1 = ((p.filter fun t => t.im == 0).map fun t => -t.re) ∧
    transformRootsToPoly2 (z.filter fun t => !(t.im == 0)) = .ok sys.n2 ∧
    transformRootsToPoly2 (p.filter fun t => !(t.im == 0)) = .ok sys.d2 ∧
    (∀ j, 2 * j + 1 < (z.filter fun t => !(t.im == 0)).length →
      sys.n2.getD j (0, 0) =
        (((z.filter fun t => !(t.im == 0)).getD (2 * j) 0 *
            (z.filter fun t => !(t.im == 0)).getD (2 * j + 1) 0).re,
         (-((z.filter fun t => !(t.im == 0)).getD (2 * j) 0 +
            (z.filter fun t => !(t.im == 0)).getD (2 * j + 1) 0)).re)) ∧
    (∀ j, 2 * j + 1 < (p.filter fun t => !(t.im == 0)).length →
      sys.d2.getD j (0, 0) =
        (((p.filter fun t => !(t.im == 0)).getD (2 * j) 0 *
            (p.filter fun t => !(t.im == 0)).getD (2 * j + 1) 0).re,
         (-((p.filter fun t => !(t.im == 0)).getD (2 * j) 0 +
            (p.filter fun t => !(t.im == 0)).getD (2 * j + 1) 0)).re)) := by
  obtain ⟨n2v, d2v, htz, htp, hsys⟩ := fromRootForm_ok_inv h
  subst hsys
  refine ⟨rfl, rfl, rfl, rfl, rfl, htz, htp, ?_, ?_⟩
  · intro j hj
    have hjlen : j < (chunkPairs (z.filter fun t => !(t.im == 0))).length := by
      rw [chunkPairs_length]; omega
    show n2v.getD j (0, 0) = _
    rw [transform_ok_val htz,
      getD_map _ (((0 : ℚ), (0 : ℚ))) ((0 : Cx), (0 : Cx)) _ j hjlen,
      chunkPairs_getD _ j hj]
  · intro j hj
    have hjlen : j < (chunkPairs (p.filter fun t => !(t.im == 0))).length := by
      rw [chunkPairs_length]; omega
    show d2v.getD j (0, 0) = _
    rw [transform_ok_val htp,
      getD_map _ (((0 : ℚ), (0 : ℚ))) ((0 : Cx), (0 : Cx)) _ j hjlen,
      chunkPairs_getD _ j hj]

theorem root_form_construction_spec_witness :
    testSys.n1 = ((testZeros.filter fun t => t.im == 0).map fun t => -t.re) ∧
    testSys.z = testZeros :=
  ⟨(root_form_construction_spec (31 / 10) testZeros testPoles testSys
      fromRootForm_testSys).2.2.2.1,
   (root_form_construction_spec (31 / 10) testZeros testPoles testSys
      fromRootForm_testSys).2.1⟩

/-- C7: for `den_min >= 0`, evaluation divides by the accumulated
denominator when its magnitude is at least `den_min` (rendered with both
sides squared) and by the scalar floor `den_min` itself otherwise. -/
theorem evaluate_den_min_floor_spec (sys : SISO) (s : Cx) (den_min : ℚ)
    (h : 0 ≤ den_min) :
    (den_min ^ 2 ≤ (denAt sys s).normSq →
      sys.evaluate_at_s s den_min = Cx.div (numAt sys s) (denAt sys s)) ∧
    ((denAt sys s).normSq < den_min ^ 2 →
      sys.evaluate_at_s s den_min = Cx.div (numAt sys s) (Cx.ofRat den_min)) := by
  constructor
  · intro hge
    unfold SISO.evaluate_at_s chosenDivisor
    rw [if_pos (show absGe (denAt sys s) den_min from Or.inr hge)]
  · intro hlt
    have hpos : 0 < den_min := by
      by_contra hnp
      push_neg at hnp
      have h0 : den_min = 0 := le_antisymm hnp h
      rw [h0] at hlt
      simp only [ne_eq, OfNat.ofNat_ne_zero, not_false_eq_true, zero_pow] at hlt
      exact absurd hlt (not_lt.mpr (Cx.normSq_nonneg _))
    unfold SISO.evaluate_at_s chosenDivisor
    rw [if_neg (show ¬ absGe (denAt sys s) den_min from ?_)]
    rintro (hle | hge)
    · exact absurd hle (not_le.mpr hpos)
    · exact absurd hge (not_le.mpr hlt)

/-- A SISO entity with a single pole at `s = 0`: root form `(1, [], [0])`. -/
def poleAtZeroSys : SISO :=
  { k := 1, n1 := [], n2 := [], d1 := [0], d2 := [], z := [], p := [⟨0, 0⟩] }

theorem denAt_poleAtZero : denAt poleAtZeroSys ⟨0, 0⟩ = 0 := by
  unfold denAt poleAtZeroSys
  simp only [List.foldl_cons, List.foldl_nil]
  apply Cx.ext <;> norm_num [Cx.ofRat]

theorem poleAtZero_normSq_lt : (denAt poleAtZeroSys ⟨0, 0⟩).normSq < (1 / 10 ^ 10 : ℚ) ^ 2 := by
  rw [denAt_poleAtZero]
  norm_num [Cx.normSq]

theorem evaluate_den_min_floor_spec_witness :
    poleAtZeroSys.evaluate_at_s ⟨0, 0⟩ (1 / 10 ^ 10) =
      Cx.div (numAt poleAtZeroSys ⟨0, 0⟩) (Cx.ofRat (1 / 10 ^ 10)) :=
  (evaluate_den_min_floor_spec poleAtZeroSys ⟨0, 0⟩ (1 / 10 ^ 10)
      (by norm_num)).2 poleAtZero_normSq_lt

/-- C9: the gain mutation `set_k` overwrites only `k`; the factor
coefficients and the cached zero/pole vectors are untouched. -/
theorem set_k_frame_spec (sys : SISO) (k_new : ℚ) :
    (set_k sys k_new).k = k_new ∧ (set_k sys k_new).n1 = sys.n1 ∧
    (set_k sys k_new).n2 = sys.n2 ∧ (set_k sys k_new).d1 = sys.d1 ∧
    (set_k sys k_new).d2 = sys.d2 ∧ (set_k sys k_new).z = sys.z ∧
    (set_k sys k_new).p = sys.p :=
  ⟨rfl, rfl, rfl, rfl, rfl, rfl, rfl⟩

/-- C10: with the default `den_min = 0` the floor never triggers — the
selected divisor is always the denominator itself — so evaluating exactly
at a pole divides by the zero denominator without any error path. -/
theorem den_min_zero_unguarded_spec (sys : SISO) (s : Cx) :
    chosenDivisor sys s 0 = denAt sys s ∧
    (denAt sys s = 0 → sys.evaluate_at_s s 0 = Cx.div (numAt sys s) 0) := by
  refine ⟨chosenDivisor_zero sys s, ?_⟩
  intro hpole
  unfold SISO.evaluate_at_s
  rw [chosenDivisor_zero, hpole]

theorem den_min_zero_unguarded_spec_witness :
    poleAtZeroSys.evaluate_at_s ⟨0, 0⟩ 0 = Cx.div (numAt poleAtZeroSys ⟨0, 0⟩) 0 :=
  (den_min_zero_unguarded_spec poleAtZeroSys ⟨0, 0⟩).2 denAt_poleAtZero

/-- C2: indexed access on a MIMO matrix returns the stored cell for an
in-range 2-component key, fails with the `invalidArgument` kind (Python
`TypeError`) for a key whose length is not 2, and fails with the
`outOfRange` kind (Python `IndexError`) when either component is outside
`[0, ny)` / `[0, nu)`. -/
theorem mimo_getitem_spec (M : MIMO) :
    (∀ r c : ℤ, 0 ≤ r → r < (M.ny : ℤ) → 0 ≤ c → c < (M.nu : ℤ) →
      M.getItem [r, c] = .ok ((M.zpk.getD r.toNat []).getD c.toNat default)) ∧
    (∀ key : List ℤ, key.length ≠ 2 →
      M.getItem key = .error ⟨.invalidArgument, none⟩) ∧
    (∀ r c : ℤ, (r < 0 ∨ (M.ny : ℤ) ≤ r ∨ c < 0 ∨ (M.nu : ℤ) ≤ c) →
      M.getItem [r, c] = .error ⟨.outOfRange, none⟩) := by
  refine ⟨?_, ?_, ?_⟩
  · intro r c h1 h2 h3 h4
    unfold MIMO.getItem
    simp only [List.length_cons, List.length_nil, List.getD_cons_zero, List.getD_cons_succ]
    rw [if_neg (by omega), if_neg (by omega), if_neg (by omega)]
  · intro key hkey
    unfold MIMO.getItem
    rw [if_pos hkey]
  · intro r c hout
    unfold MIMO.getItem
    simp only [List.length_cons, List.length_nil, List.getD_cons_zero, List.getD_cons_succ]
    rw [if_neg (by omega)]
    by_cases hr : r < 0 ∨ (M.ny : ℤ) ≤ r
    · rw [if_pos hr]
    · rw [if_neg hr, if_pos (by omega)]

/-- A SISO entity that is just a constant gain `q` (no zeros, no poles). -/
def constSISO (q : ℚ) : SISO :=
  { k := q, n1 := [], n2 := [], d1 := [], d2 := [], z := [], p := [] }

/-- The 2-by-3 matrix of six distinct cells used by the spec's MIMO
indexing test. -/
def testMatrix : MIMO :=
  MIMO.ofMatrix [[constSISO 1, constSISO 2, constSISO 3],
                 [constSISO 4, constSISO 5, constSISO 6]]

theorem mimo_getitem_spec_witness :
    testMatrix.getItem [1, 2] = .ok (constSISO 6) ∧
    testMatrix.getItem [2, 0] = .error ⟨.outOfRange, none⟩ ∧
    testMatrix.getItem [1] = .error ⟨.invalidArgument, none⟩ ∧
    testMatrix.getItem [0, 1, 2] = .error ⟨.invalidArgument, none⟩ := by
  refine ⟨?_, ?_, ?_, ?_⟩
  · rw [(mimo_getitem_spec testMatrix).1 1 2 (by decide) (by decide) (by decide) (by decide)]
    rfl
  · exact (mimo_getitem_spec testMatrix).2.2 2 0 (by decide)
  · exact (mimo_getitem_spec testMatrix).2.1 [1] (by decide)
  · exact (mimo_getitem_spec testMatrix).2.1 [0, 1, 2] (by decide)

/-- C8: matrix evaluation with selections `U` (inputs) and `Y` (outputs),
each defaulting to all indices, is input-major: the outer sequence ranges
over the selected inputs, the inner one over the selected outputs, and the
leaf at outer position `a`, inner position `b` is the per-cell SISO
evaluation of cell `(Y[b], U[a])`. -/
theorem mimo_evaluate_nesting_spec (M : MIMO) (s : Cx) (den_min : ℚ)
    (uopt yopt : Option (List ℕ)) :
    (M.evaluate_at_s s den_min uopt yopt).length =
      (uopt.getD (List.range M.nu)).length ∧
    ∀ a b : ℕ, a < (uopt.getD (List.range M.nu)).length →
      b < (yopt.getD (List.range M.ny)).length →
      ((M.evaluate_at_s s den_min uopt yopt).getD a []).length =
        (yopt.getD (List.range M.ny)).length ∧
      ((M.evaluate_at_s s den_min uopt yopt).getD a []).getD b 0 =
        SISO.evaluate_at_s
          ((M.zpk.getD ((yopt.getD (List.range M.ny)).getD b 0) []).getD
            ((uopt.getD (List.range M.nu)).getD a 0) default) s den_min := by
  constructor
  · unfold MIMO.evaluate_at_s
    rw [List.length_map]
  · intro a b ha hb
    unfold MIMO.evaluate_at_s
    rw [getD_map _ ([] : List Cx) 0 _ a ha]
    constructor
    · rw [List.length_map]
    · rw [getD_map _ (0 : Cx) 0 _ b hb]

theorem mimo_evaluate_nesting_spec_witness :
    ((testMatrix.evaluate_at_s ⟨1, 0⟩ 0 none none).getD 0 []).getD 1 (0 : Cx) =
      SISO.evaluate_at_s ((testMatrix.zpk.getD 1 []).getD 0 default) ⟨1, 0⟩ 0 := by
  have h := (mimo_evaluate_nesting_spec testMatrix ⟨1, 0⟩ 0 none none).2 0 1
    (by decide) (by decide)
  exact h.2

/-- C1: the claim fails on the code: whenever the caller supplies
`f_range`, `ZerosAndPoles.frequencyResponse` reads the local selection
variables `ui`/`yi` that are assigned only in the `f_range == None`
branch, so the call raises `UnboundLocalError` instead of completing with
the supplied range. -/
theorem mimo_frequencyResponse_given_range_unbound (co : Collaborators)
    (M : MIMO) (n : ℕ) (r : ℚ × ℚ) (f_logspace : Bool)
    (uopt yopt : Option (List ℕ)) :
    mimoFrequencyResponse co M n (some r) f_logspace uopt yopt =
      .error ⟨.nameError, none⟩ := rfl
